import Mathlib

/-!
# Verification of the Pashto-Bible-Search morphological engine

Shallow embedding of the core of the repository:

* `normalize_pashto_char`  (src/generate_grammar_index_v15.py, src/search_utils.py)
* the v15 grammar engine `find_all_possible_roots`, `load_word_data` and the
  index-building main loop (src/generate_grammar_index_v15.py)
* the verb conjugation generator `conjugate_verb` (src/verb_inflector.py)
* the search helpers (src/search_utils.py)

Python strings are modelled as Lean `String` (a structure holding `data : List Char`);
Python's character-level operations (`startswith`, `endswith`, slicing, single-character
`str.replace`) are modelled by the `py*` helpers below operating on `String.data`,
matching Python's character (not byte) semantics.  Python dicts that the code iterates
or mutates are modelled as association lists in insertion order, matching CPython's
guaranteed dict iteration order.  Python exceptions are modelled with `Except`.
-/

/-- Python `s.replace(old, new)` for a single-character pattern and replacement:
every occurrence of the character `old` is replaced by `new`, all other characters
pass through unchanged. -/
def replace1 (old new : Char) (s : String) : String :=
  ⟨s.data.map (fun c => if c = old then new else c)⟩

/-- Python `word.startswith(pre)`. -/
def pyStartsWith (s pre : String) : Bool :=
  pre.data.isPrefixOf s.data

/-- Python `word.endswith(suf)`. -/
def pyEndsWith (s suf : String) : Bool :=
  suf.data.isSuffixOf s.data

/-- Python `word[:-n]` for `0 < n ≤ len(word)`: drop the last `n` characters. -/
def pyDropRightChars (s : String) (n : Nat) : String :=
  ⟨s.data.take (s.data.length - n)⟩

/-- Python `len(word)` (character count). -/
def pyLen (s : String) : Nat := s.data.length

/-!
## Normalizer  (src/generate_grammar_index_v15.py lines 39-43, src/search_utils.py lines 6-11)

```python
def normalize_pashto_char(text):
    replacements = {'ي': 'ی', 'ى': 'ی', 'ئ': 'ی'}
    for old, new in replacements.items():
        text = text.replace(old, new)
    return text
```

The three variant yeh code points are U+064A `ي`, U+0649 `ى`, U+0626 `ئ`; the canonical
form is U+06CC `ی`.  The dict iterates in insertion order, so the three single-character
replacements are applied in the order U+064A, U+0649, U+0626.
-/

def yehArabic : Char := Char.ofNat 0x064A
def yehMaqsura : Char := Char.ofNat 0x0649
def yehHamza : Char := Char.ofNat 0x0626
def yehFarsi : Char := Char.ofNat 0x06CC

def normalize_pashto_char (text : String) : String :=
  replace1 yehHamza yehFarsi (replace1 yehMaqsura yehFarsi (replace1 yehArabic yehFarsi text))

/-- The compound per-character action of `normalize_pashto_char`. -/
def normChar (c : Char) : Char :=
  (fun c => if c = yehHamza then yehFarsi else c)
    ((fun c => if c = yehMaqsura then yehFarsi else c)
      ((fun c => if c = yehArabic then yehFarsi else c) c))

theorem data_normalize_pashto_char (s : String) :
    (normalize_pashto_char s).data = s.data.map normChar := by
  simp [normalize_pashto_char, replace1, List.map_map, normChar, Function.comp_def]

theorem normChar_idem (c : Char) : normChar (normChar c) = normChar c := by
  by_cases h1 : c = yehArabic
  · subst h1; decide
  · by_cases h2 : c = yehMaqsura
    · subst h2; decide
    · by_cases h3 : c = yehHamza
      · subst h3; decide
      · simp [normChar, h1, h2, h3]

theorem map_normChar_idem (l : List Char) :
    (l.map normChar).map normChar = l.map normChar := by
  induction l with
  | nil => rfl
  | cons a as ih => simp only [List.map_cons, ih, normChar_idem]

/-- C9: `normalize(normalize(x)) == normalize(x)` for every string `x`; the operation is
total (a plain function on strings) and unmapped characters pass through unchanged. -/
theorem C9_normalize_idempotent (x : String) :
    normalize_pashto_char (normalize_pashto_char x) = normalize_pashto_char x := by
  have h : (normalize_pashto_char (normalize_pashto_char x)).data
      = (normalize_pashto_char x).data := by
    rw [data_normalize_pashto_char (normalize_pashto_char x), data_normalize_pashto_char x]
    exact map_normChar_idem x.data
  cases hnn : normalize_pashto_char (normalize_pashto_char x)
  cases hn : normalize_pashto_char x
  simp_all

/-!
## Data model of the v15 grammar engine  (src/generate_grammar_index_v15.py)

An interpretation is the Python dict `{'type': ..., 'pattern_info': ..., 'form_description': ...}`
paired with a root; `find_all_possible_roots` returns a list of such pairs.
-/

structure Interp where
  typ : String
  pattern_info : String
  form_description : String
deriving DecidableEq

/-- A verb-lexicon record of v15 (fields of the Python dict; `type` is always `'Verb'`).
`stems` is the insertion-ordered stem table `stem_type -> stem_form`. -/
structure VerbDetails where
  typ : String
  pattern_info : String
  stems : List (String × String)
  related_roots : Option (List String)
  base_root : Option String
  translit : String
deriving DecidableEq

/-- An irregular noun/adjective lexicon record of v15 (`type` is always `'Noun/Adj'`). -/
structure NounDetails where
  typ : String
  pattern_info : String
  inflected_forms : List String
  translit : String
deriving DecidableEq

/-!
### Transliteration engine  (src/generate_grammar_index_v15.py lines 7-36)
-/

/-- `TRANSLIT_MAP`, in Python dict insertion order (the three two-character
combinations are added by `TRANSLIT_MAP.update` at the end). -/
def TRANSLIT_MAP : List (String × String) :=
  [("ا", "aa"), ("آ", "aa"), ("ب", "b"), ("پ", "p"), ("ت", "t"), ("ټ", "T"),
   ("ث", "s"), ("ج", "j"), ("چ", "ch"), ("ح", "h"), ("خ", "kh"), ("څ", "ts"),
   ("ځ", "dz"), ("د", "d"), ("ډ", "D"), ("ذ", "z"), ("ر", "r"), ("ړ", "R"),
   ("ز", "z"), ("ژ", "jz"), ("ږ", "G"), ("س", "s"), ("ش", "sh"), ("ښ", "x"),
   ("ص", "s"), ("ض", "z"), ("ط", "t"), ("ظ", "z"), ("ع", "'"), ("غ", "gh"),
   ("ف", "f"), ("ق", "q"), ("ک", "k"), ("ګ", "g"), ("ل", "l"), ("م", "m"),
   ("ن", "n"), ("ڼ", "N"), ("و", "w"), ("ه", "h"), ("ی", "y"), ("ې", "e"),
   ("ۍ", "uy"), ("ئ", "ey"), ("وا", "waa"), ("وي", "wee"), ("وو", "oo")]

/-- `text[i:i+2] in TRANSLIT_MAP` / `text[i] in TRANSLIT_MAP` plus the value access. -/
def translitLookup (s : String) : Option String :=
  TRANSLIT_MAP.lookup s

/-- The character loop of `transliterate`: two-character patterns are checked first,
then single characters; unknown characters are kept. -/
def transliterateGo : List Char → String
  | [] => ""
  | [a] =>
    match translitLookup ⟨[a]⟩ with
    | some r => r
    | none => ⟨[a]⟩
  | a :: b :: rest =>
    match translitLookup ⟨[a, b]⟩ with
    | some r => r ++ transliterateGo rest
    | none =>
      match translitLookup ⟨[a]⟩ with
      | some r => r ++ transliterateGo (b :: rest)
      | none => ⟨[a]⟩ ++ transliterateGo (b :: rest)

def transliterate (text : String) : String :=
  transliterateGo text.data

/-!
### Lexicons  (src/generate_grammar_index_v15.py lines 45-71)

`normalize_lexicon` normalizes dict keys and, among the fields
`stems` / `inflected_forms` / `related_roots` / `base_root`, the values of dict-valued
fields, the items of list-valued fields and string-valued fields; `pattern_info`,
`type` and `translit` are left alone.
-/

def normalizeVerbDetails (d : VerbDetails) : VerbDetails :=
  { d with
    stems := d.stems.map (fun p => (p.1, normalize_pashto_char p.2)),
    related_roots := d.related_roots.map (List.map normalize_pashto_char),
    base_root := d.base_root.map normalize_pashto_char }

def normalizeNounDetails (d : NounDetails) : NounDetails :=
  { d with inflected_forms := d.inflected_forms.map normalize_pashto_char }

def normalize_verb_lexicon (lex : List (String × VerbDetails)) : List (String × VerbDetails) :=
  lex.map (fun p => (normalize_pashto_char p.1, normalizeVerbDetails p.2))

def normalize_noun_lexicon (lex : List (String × NounDetails)) : List (String × NounDetails) :=
  lex.map (fun p => (normalize_pashto_char p.1, normalizeNounDetails p.2))

/-- The v15 `VERB_LEXICON` (wrapped in `normalize_lexicon` as in the source). -/
def VERB_LEXICON : List (String × VerbDetails) :=
  normalize_verb_lexicon
    [("بوتلل",
      { typ := "Verb", pattern_info := "Irregular Verb",
        stems := [("imperfective", "بیای"), ("perfective", "بوځ"),
                  ("past_participle", "بوتللی")],
        related_roots := none, base_root := none, translit := "botlúl" }),
     ("رسول",
      { typ := "Verb", pattern_info := "Transitive Verb (to deliver/send)",
        stems := [("imperfective", "رسو"), ("perfective", "ورسو"),
                  ("past_participle", "رسولی")],
        related_roots := some ["پوهول"], base_root := none, translit := "rasawúl" }),
     ("پوهول",
      { typ := "Verb", pattern_info := "Causative Verb (to make understand)",
        stems := [("imperfective", "پوهو"), ("perfective", "وپوهو"),
                  ("past_participle", "پوهولی")],
        related_roots := none, base_root := some "کول", translit := "pohawúl" })]

/-- The v15 `IRREGULAR_NOUN_ADJ_LEXICON` (wrapped in `normalize_lexicon` as in the source). -/
def IRREGULAR_NOUN_ADJ_LEXICON : List (String × NounDetails) :=
  normalize_noun_lexicon
    [("پښتون",
      { typ := "Noun/Adj", pattern_info := "Pattern 4: Pashtoon",
        inflected_forms := ["پښتانه", "پښتنو", "پښتنه", "پښتنې"],
        translit := "puxtoon" })]

/-!
### The grammar engine  (src/generate_grammar_index_v15.py lines 90-142)
-/

/-- Branches A (direct infinitive match), B (stem-based derivation) and C (related
root match) for one verb-lexicon entry, in source order. -/
def verbEntryInterps (word root : String) (details : VerbDetails) : List (String × Interp) :=
  (if word = root then
    [(root, ⟨"Verb", details.pattern_info, "Infinitive Root"⟩)]
   else [])
  ++ details.stems.filterMap (fun p =>
      if pyStartsWith word p.2 then
        some (root, ⟨"Verb", details.pattern_info,
          "Conjugation from " ++ p.1 ++ " stem '" ++ p.2 ++ "'"⟩)
      else none)
  ++ (match details.related_roots with
      | some rel =>
        if word ∈ rel then
          [(root, ⟨"Verb", details.pattern_info, "Related Root: '" ++ word ++ "'"⟩)]
        else []
      | none => [])

/-- The irregular noun/adjective branch for one lexicon entry (`if` / `elif` in source). -/
def nounEntryInterps (word root : String) (details : NounDetails) : List (String × Interp) :=
  if word = root then
    [(root, ⟨"Noun/Adj", details.pattern_info, "Base Form (Masc. Plain)"⟩)]
  else if word ∈ details.inflected_forms then
    [(root, ⟨"Noun/Adj", details.pattern_info, "Inflection of '" ++ root ++ "'"⟩)]
  else []

def plural_endings : List String := ["ان", "انو"]

/-- The regular noun/adjective suffix rules (branch 3, lines 118-127): strip a plural
ending and accept the candidate root exactly when it occurs in the vocabulary. -/
def suffixInterps (word : String) (all_words_set : List String) : List (String × Interp) :=
  plural_endings.flatMap (fun ending =>
    if pyEndsWith word ending then
      let possible_root := pyDropRightChars word (pyLen ending)
      if all_words_set.contains possible_root then
        [(possible_root,
          ⟨"Noun/Adj", "Regular Noun/Adj", "Inflection of '" ++ possible_root ++ "'"⟩)]
      else []
    else [])

/-- The dedup key `(r, d['type'], d['form_description'])` (lines 134-141). -/
def interpKey (p : String × Interp) : String × String × String :=
  (p.1, p.2.typ, p.2.form_description)

/-- The `seen`-set dedup loop of lines 134-141 (first occurrence of each key wins). -/
def dedupInterpsGo (seen : List (String × String × String)) :
    List (String × Interp) → List (String × Interp)
  | [] => []
  | p :: rest =>
    if interpKey p ∈ seen then dedupInterpsGo seen rest
    else p :: dedupInterpsGo (interpKey p :: seen) rest

/-- `find_all_possible_roots` of v15: verb analysis, irregular noun/adjective
analysis, regular suffix analysis, vocabulary fallback, then deduplication. -/
def find_all_possible_roots (word : String) (all_words_set : List String) :
    List (String × Interp) :=
  let interps :=
    (VERB_LEXICON.flatMap (fun p => verbEntryInterps word p.1 p.2))
    ++ (IRREGULAR_NOUN_ADJ_LEXICON.flatMap (fun p => nounEntryInterps word p.1 p.2))
    ++ suffixInterps word all_words_set
  let interps2 :=
    if interps.isEmpty && all_words_set.contains word then
      interps ++ [(word, ⟨"Unknown", "N/A", "Base Form"⟩)]
    else interps
  dedupInterpsGo [] interps2

/-!
## Word data loading  (src/generate_grammar_index_v15.py lines 74-87)

The regex parse of each line (`^(.*?) \((\d+)\): (.*)$` followed by
`refs_str.split(', ')`) is the file-format boundary; aggregation works on the parsed
records `(word, count, refs)`.  On first insertion the verse list is
`list(set(refs))`; CPython's set iteration order is unspecified, so it is modelled by
`List.dedup` (claims proved below do not depend on the order chosen).  On a repeated
(normalized) key the count is added and the raw refs are appended with `extend`.
-/

structure WData where
  count : Nat
  verses : List String
deriving DecidableEq

def insertWordData (nw : String) (c : Nat) (refs : List String) :
    List (String × WData) → List (String × WData)
  | [] => [(nw, ⟨c, refs.dedup⟩)]
  | (k, d) :: rest =>
    if k = nw then (k, ⟨d.count + c, d.verses ++ refs⟩) :: rest
    else (k, d) :: insertWordData nw c refs rest

def load_word_data (records : List (String × Nat × List String)) :
    List (String × WData) :=
  records.foldl
    (fun wd r => insertWordData (normalize_pashto_char r.1) r.2.1 r.2.2 wd) []

/-!
## Index builder  (src/generate_grammar_index_v15.py lines 144-172)

`final_index` is `defaultdict(lambda: {"identities": []})`; an identity is the dict
created at lines 159-164 whose `forms` is a `defaultdict(list)`.  All three mutable
dict/list layers are modelled as insertion-ordered association lists, and the in-place
mutation `update the first matching element, else append a freshly created one` is
captured by `updList`.
-/

structure Occ where
  form : String
  count : Nat
  verses : List String
  translit : String
deriving DecidableEq

structure Identity where
  typ : String
  pattern_info : String
  translit : String
  forms : List (String × List Occ)
deriving DecidableEq

/-- Update the first element satisfying `p` with `f`; when there is none, append the
freshly created `f mk` (the Python pattern: look up, create-and-append on miss, then
mutate the located object in place). -/
def updList {α : Type} (p : α → Bool) (f : α → α) (mk : α) : List α → List α
  | [] => [f mk]
  | a :: as => if p a then f a :: as else a :: updList p f mk as

/-- Lines 158-164: `VERB_LEXICON.get(root) or IRREGULAR_NOUN_ADJ_LEXICON.get(root)`;
a fresh identity takes `pattern_info`/`translit` from the lexicon entry when the root
is lexicon-known, else `'Regular Noun/Adj'` and `transliterate(root)`. -/
def newIdentity (root : String) (details : Interp) : Identity :=
  match VERB_LEXICON.lookup root with
  | some e => ⟨details.typ, e.pattern_info, e.translit, []⟩
  | none =>
    match IRREGULAR_NOUN_ADJ_LEXICON.lookup root with
    | some e => ⟨details.typ, e.pattern_info, e.translit, []⟩
    | none => ⟨details.typ, "Regular Noun/Adj", transliterate root, []⟩

/-- `identity['forms'][details['form_description']].append(occ)`. -/
def addOccToForms (desc : String) (occ : Occ) (forms : List (String × List Occ)) :
    List (String × List Occ) :=
  updList (fun b => b.1 == desc) (fun b => (b.1, b.2 ++ [occ])) (desc, []) forms

def addOccToIdentity (desc : String) (occ : Occ) (i : Identity) : Identity :=
  { i with forms := addOccToForms desc occ i.forms }

/-- Lines 155-165: locate the identity with matching `type` under the root (else
create one) and append the occurrence into its `form_description` bucket. -/
def addOccToIdentities (root : String) (details : Interp) (occ : Occ)
    (ids : List Identity) : List Identity :=
  updList (fun i => i.typ == details.typ) (addOccToIdentity details.form_description occ)
    (newIdentity root details) ids

def addOcc (idx : List (String × List Identity)) (root : String) (details : Interp)
    (occ : Occ) : List (String × List Identity) :=
  updList (fun e => e.1 == root) (fun e => (e.1, addOccToIdentities root details occ e.2))
    (root, []) idx

/-- The occurrence record appended at lines 167-172. -/
def mkOcc (word : String) (d : WData) : Occ :=
  ⟨word, d.count, d.verses, transliterate word⟩

/-- Lines 150-152: the per-word interpretations, with the `if not interpretations`
replacement by the Unknown fallback. -/
def effInterps (word : String) (all_words_set : List String) : List (String × Interp) :=
  let interpretations := find_all_possible_roots word all_words_set
  if interpretations.isEmpty then [(word, ⟨"Unknown", "N/A", "Base Form"⟩)]
  else interpretations

def processWord (all_words_set : List String) (idx : List (String × List Identity))
    (word : String) (d : WData) : List (String × List Identity) :=
  (effInterps word all_words_set).foldl
    (fun idx p => addOcc idx p.1 p.2 (mkOcc word d)) idx

/-- The main execution loop of v15 (lines 145-172): `all_words_set` is the key set of
the loaded word data, and every `(word, data)` item is folded into the index. -/
def build_index (word_data : List (String × WData)) : List (String × List Identity) :=
  let all_words_set := word_data.map Prod.fst
  word_data.foldl (fun idx p => processWord all_words_set idx p.1 p.2) []

/-!
### Occurrence predicates on the built index
-/

/-- Some bucket of `forms` holds an occurrence whose `form` field is `w`. -/
def OccFormIn (w : String) (forms : List (String × List Occ)) : Prop :=
  ∃ b ∈ forms, ∃ o ∈ b.2, o.form = w

/-- The index has, under root `root`, an identity of category `typ` holding an
occurrence whose `form` field is `w`. -/
def HasFormUnder (idx : List (String × List Identity)) (root typ w : String) : Prop :=
  ∃ e ∈ idx, e.1 = root ∧ ∃ i ∈ e.2, i.typ = typ ∧ OccFormIn w i.forms

/-- The index holds, somewhere, an occurrence whose `form` field is `w`. -/
def HasForm (idx : List (String × List Identity)) (w : String) : Prop :=
  ∃ e ∈ idx, ∃ i ∈ e.2, OccFormIn w i.forms

instance (w : String) (forms : List (String × List Occ)) : Decidable (OccFormIn w forms) := by
  unfold OccFormIn; infer_instance

instance (idx : List (String × List Identity)) (root typ w : String) :
    Decidable (HasFormUnder idx root typ w) := by
  unfold HasFormUnder; infer_instance

instance (idx : List (String × List Identity)) (w : String) : Decidable (HasForm idx w) := by
  unfold HasForm; infer_instance

/-!
### Generic lemmas about `updList`
-/

theorem updList_establish {α : Type} {p : α → Bool} {f : α → α} {mk : α} {Q : α → Prop}
    (H1 : ∀ a, p a = true → Q (f a)) (H2 : Q (f mk)) :
    ∀ l : List α, ∃ a ∈ updList p f mk l, Q a := by
  intro l
  induction l with
  | nil => exact ⟨f mk, by simp [updList], H2⟩
  | cons a as ih =>
    by_cases h : p a = true
    · exact ⟨f a, by simp [updList, h], H1 a h⟩
    · obtain ⟨b, hb, hQ⟩ := ih
      refine ⟨b, ?_, hQ⟩
      simp only [updList, if_neg h, List.mem_cons]
      exact Or.inr hb

theorem updList_mono {α : Type} {p : α → Bool} {f : α → α} {mk : α} {Q : α → Prop}
    (H : ∀ a, Q a → Q (f a)) :
    ∀ l : List α, (∃ a ∈ l, Q a) → ∃ a ∈ updList p f mk l, Q a := by
  intro l
  induction l with
  | nil => rintro ⟨a, ha, -⟩; simp at ha
  | cons a as ih =>
    rintro ⟨b, hb, hQ⟩
    rcases List.mem_cons.mp hb with rfl | hb'
    · by_cases h : p b = true
      · exact ⟨f b, by simp [updList, h], H b hQ⟩
      · exact ⟨b, by simp [updList, h], hQ⟩
    · by_cases h : p a = true
      · exact ⟨b, by simp only [updList, if_pos h, List.mem_cons]; exact Or.inr hb', hQ⟩
      · obtain ⟨c, hc, hcQ⟩ := ih ⟨b, hb', hQ⟩
        exact ⟨c, by simp only [updList, if_neg h, List.mem_cons]; exact Or.inr hc, hcQ⟩

theorem updList_inv {α : Type} {p : α → Bool} {f : α → α} {mk : α} {Q : α → Prop} {C : Prop}
    (l : List α) (hex : ∃ a ∈ updList p f mk l, Q a)
    (H1 : ∀ a, p a = true → Q (f a) → Q a ∨ C) (H2 : Q (f mk) → C) :
    (∃ a ∈ l, Q a) ∨ C := by
  induction l with
  | nil =>
    obtain ⟨b, hb, hQ⟩ := hex
    simp [updList] at hb
    subst hb
    exact Or.inr (H2 hQ)
  | cons a as ih =>
    obtain ⟨b, hb, hQ⟩ := hex
    by_cases h : p a = true
    · simp only [updList, if_pos h, List.mem_cons] at hb
      rcases hb with rfl | hb'
      · rcases H1 a h hQ with hQa | hC
        · exact Or.inl ⟨a, by simp, hQa⟩
        · exact Or.inr hC
      · exact Or.inl ⟨b, by simp [hb'], hQ⟩
    · simp only [updList, if_neg h, List.mem_cons] at hb
      rcases hb with rfl | hb'
      · exact Or.inl ⟨b, by simp, hQ⟩
      · rcases ih ⟨b, hb', hQ⟩ with ⟨c, hc, hcQ⟩ | hC
        · exact Or.inl ⟨c, by simp [hc], hcQ⟩
        · exact Or.inr hC

/-!
### Occurrence tracking through `addOcc`
-/

theorem newIdentity_typ (root : String) (details : Interp) :
    (newIdentity root details).typ = details.typ := by
  unfold newIdentity
  cases VERB_LEXICON.lookup root with
  | some e => rfl
  | none =>
    cases IRREGULAR_NOUN_ADJ_LEXICON.lookup root with
    | some e => rfl
    | none => rfl

theorem newIdentity_forms (root : String) (details : Interp) :
    (newIdentity root details).forms = [] := by
  unfold newIdentity
  cases VERB_LEXICON.lookup root with
  | some e => rfl
  | none =>
    cases IRREGULAR_NOUN_ADJ_LEXICON.lookup root with
    | some e => rfl
    | none => rfl

theorem addOccToForms_establish (desc : String) (occ : Occ)
    (forms : List (String × List Occ)) :
    OccFormIn occ.form (addOccToForms desc occ forms) := by
  unfold OccFormIn addOccToForms
  refine updList_establish (Q := fun b => ∃ o ∈ b.2, o.form = occ.form) ?_ ?_ forms
  · intro b _
    exact ⟨occ, by simp, rfl⟩
  · exact ⟨occ, by simp, rfl⟩

theorem addOccToForms_mono {w : String} (desc : String) (occ : Occ)
    (forms : List (String × List Occ)) (h : OccFormIn w forms) :
    OccFormIn w (addOccToForms desc occ forms) := by
  unfold OccFormIn addOccToForms
  unfold OccFormIn at h
  refine updList_mono (Q := fun b => ∃ o ∈ b.2, o.form = w) ?_ forms h
  rintro b ⟨o, ho, hw⟩
  exact ⟨o, by simp [ho], hw⟩

theorem addOccToForms_inv {w : String} (desc : String) (occ : Occ)
    (forms : List (String × List Occ)) (h : OccFormIn w (addOccToForms desc occ forms)) :
    OccFormIn w forms ∨ occ.form = w := by
  unfold OccFormIn at h ⊢
  unfold addOccToForms at h
  refine updList_inv (Q := fun b => ∃ o ∈ b.2, o.form = w) (C := occ.form = w)
    forms h ?_ ?_
  · rintro b - ⟨o, ho, hw⟩
    rcases List.mem_append.mp ho with ho' | ho'
    · exact Or.inl ⟨o, ho', hw⟩
    · simp only [List.mem_singleton] at ho'
      subst ho'
      exact Or.inr hw
  · rintro ⟨o, ho, hw⟩
    simp only [List.nil_append, List.mem_singleton] at ho
    subst ho
    exact hw

theorem addOccToIdentities_establish (root : String) (det : Interp) (occ : Occ)
    (ids : List Identity) :
    ∃ i ∈ addOccToIdentities root det occ ids, i.typ = det.typ ∧ OccFormIn occ.form i.forms := by
  unfold addOccToIdentities
  refine updList_establish (Q := fun i => i.typ = det.typ ∧ OccFormIn occ.form i.forms)
    ?_ ?_ ids
  · intro i hi
    exact ⟨by simpa using hi, addOccToForms_establish _ _ _⟩
  · refine ⟨newIdentity_typ root det, ?_⟩
    show OccFormIn occ.form (addOccToForms det.form_description occ (newIdentity root det).forms)
    exact addOccToForms_establish _ _ _

theorem addOccToIdentities_mono {τ w : String} (root : String) (det : Interp) (occ : Occ)
    (ids : List Identity) (h : ∃ i ∈ ids, i.typ = τ ∧ OccFormIn w i.forms) :
    ∃ i ∈ addOccToIdentities root det occ ids, i.typ = τ ∧ OccFormIn w i.forms := by
  unfold addOccToIdentities
  refine updList_mono (Q := fun i => i.typ = τ ∧ OccFormIn w i.forms) ?_ ids h
  rintro i ⟨hτ, hw⟩
  exact ⟨hτ, addOccToForms_mono _ _ _ hw⟩

theorem addOccToIdentities_inv {τ w : String} (root : String) (det : Interp) (occ : Occ)
    (ids : List Identity)
    (h : ∃ i ∈ addOccToIdentities root det occ ids, i.typ = τ ∧ OccFormIn w i.forms) :
    (∃ i ∈ ids, i.typ = τ ∧ OccFormIn w i.forms) ∨ (det.typ = τ ∧ occ.form = w) := by
  unfold addOccToIdentities at h
  refine updList_inv (Q := fun i => i.typ = τ ∧ OccFormIn w i.forms)
    (C := det.typ = τ ∧ occ.form = w) ids h ?_ ?_
  · rintro i hp ⟨hτ, hw⟩
    have htyp : i.typ = det.typ := by simpa using hp
    rcases addOccToForms_inv _ _ _ hw with hw' | hw'
    · exact Or.inl ⟨hτ, hw'⟩
    · exact Or.inr ⟨by rw [← htyp]; exact hτ, hw'⟩
  · rintro ⟨hτ, hw⟩
    have hτ' : (newIdentity root det).typ = τ := hτ
    have hw'' : OccFormIn w (addOccToForms det.form_description occ (newIdentity root det).forms) := hw
    rcases addOccToForms_inv _ _ _ hw'' with hw' | hw'
    · rw [newIdentity_forms] at hw'
      rcases hw' with ⟨b, hb, -⟩
      simp at hb
    · exact ⟨by rw [← newIdentity_typ root det]; exact hτ', hw'⟩

theorem addOcc_establish (idx : List (String × List Identity)) (root : String)
    (det : Interp) (occ : Occ) :
    HasFormUnder (addOcc idx root det occ) root det.typ occ.form := by
  unfold HasFormUnder addOcc
  refine updList_establish
    (Q := fun e => e.1 = root ∧ ∃ i ∈ e.2, i.typ = det.typ ∧ OccFormIn occ.form i.forms)
    ?_ ?_ idx
  · intro e he
    exact ⟨by simpa using he, addOccToIdentities_establish _ _ _ _⟩
  · exact ⟨rfl, addOccToIdentities_establish _ _ _ _⟩

theorem addOcc_mono {ρ τ w : String} (idx : List (String × List Identity)) (root : String)
    (det : Interp) (occ : Occ) (h : HasFormUnder idx ρ τ w) :
    HasFormUnder (addOcc idx root det occ) ρ τ w := by
  unfold HasFormUnder at h ⊢
  unfold addOcc
  refine updList_mono
    (Q := fun e => e.1 = ρ ∧ ∃ i ∈ e.2, i.typ = τ ∧ OccFormIn w i.forms) ?_ idx h
  rintro e ⟨hρ, hrest⟩
  exact ⟨hρ, addOccToIdentities_mono _ _ _ _ hrest⟩

theorem addOcc_inv {ρ τ w : String} (idx : List (String × List Identity)) (root : String)
    (det : Interp) (occ : Occ) (h : HasFormUnder (addOcc idx root det occ) ρ τ w) :
    HasFormUnder idx ρ τ w ∨ (root = ρ ∧ det.typ = τ ∧ occ.form = w) := by
  unfold HasFormUnder at h ⊢
  unfold addOcc at h
  refine updList_inv
    (Q := fun e => e.1 = ρ ∧ ∃ i ∈ e.2, i.typ = τ ∧ OccFormIn w i.forms)
    (C := root = ρ ∧ det.typ = τ ∧ occ.form = w) idx h ?_ ?_
  · rintro e hp ⟨hρ, hrest⟩
    have hkey : e.1 = root := by simpa using hp
    rcases addOccToIdentities_inv _ _ _ _ hrest with h' | ⟨hτ, hw⟩
    · exact Or.inl ⟨hρ, h'⟩
    · exact Or.inr ⟨by rw [← hkey]; exact hρ, hτ, hw⟩
  · intro hQ
    have hρ : root = ρ := hQ.1
    have hrest' : ∃ i ∈ addOccToIdentities root det occ [], i.typ = τ ∧ OccFormIn w i.forms := hQ.2
    rcases addOccToIdentities_inv _ _ _ _ hrest' with h' | ⟨hτ, hw⟩
    · rcases h' with ⟨i, hi, -⟩
      simp at hi
    · exact ⟨hρ, hτ, hw⟩


/-!
### Folding interpretations and words into the index
-/

theorem foldl_addOcc_mono {ρ τ w : String} (occ : Occ) :
    ∀ (interps : List (String × Interp)) (idx : List (String × List Identity)),
      HasFormUnder idx ρ τ w →
      HasFormUnder (interps.foldl (fun idx q => addOcc idx q.1 q.2 occ) idx) ρ τ w
  | [], _, h => h
  | _ :: qs, _, h => foldl_addOcc_mono occ qs _ (addOcc_mono _ _ _ _ h)

theorem foldl_addOcc_establish (occ : Occ) :
    ∀ (interps : List (String × Interp)) (idx : List (String × List Identity))
      (p : String × Interp), p ∈ interps →
      HasFormUnder (interps.foldl (fun idx q => addOcc idx q.1 q.2 occ) idx)
        p.1 p.2.typ occ.form := by
  intro interps
  induction interps with
  | nil => intro idx p hp; simp at hp
  | cons q qs ih =>
    intro idx p hp
    rcases List.mem_cons.mp hp with rfl | hp'
    · exact foldl_addOcc_mono occ qs _ (addOcc_establish _ _ _ _)
    · exact ih _ _ hp'

theorem foldl_addOcc_inv {ρ τ w : String} (occ : Occ) :
    ∀ (interps : List (String × Interp)) (idx : List (String × List Identity)),
      HasFormUnder (interps.foldl (fun idx q => addOcc idx q.1 q.2 occ) idx) ρ τ w →
      HasFormUnder idx ρ τ w ∨ ∃ p ∈ interps, p.1 = ρ ∧ p.2.typ = τ ∧ occ.form = w := by
  intro interps
  induction interps with
  | nil => intro idx h; exact Or.inl h
  | cons q qs ih =>
    intro idx h
    rcases ih _ h with h' | ⟨p, hp, hrest⟩
    · rcases addOcc_inv _ _ _ _ h' with h'' | ⟨h1, h2, h3⟩
      · exact Or.inl h''
      · exact Or.inr ⟨q, by simp, h1, h2, h3⟩
    · exact Or.inr ⟨p, by simp [hp], hrest⟩

theorem effInterps_ne_nil (word : String) (vocab : List String) :
    effInterps word vocab ≠ [] := by
  by_cases h : (find_all_possible_roots word vocab).isEmpty = true
  · simp only [effInterps, if_pos h]
    simp
  · simp only [effInterps, if_neg h]
    intro hnil
    exact h (by rw [hnil]; rfl)

theorem processWord_establish (vocab : List String) (idx : List (String × List Identity))
    (word : String) (d : WData) (p : String × Interp) (hp : p ∈ effInterps word vocab) :
    HasFormUnder (processWord vocab idx word d) p.1 p.2.typ word := by
  unfold processWord
  exact foldl_addOcc_establish (mkOcc word d) _ idx p hp

theorem processWord_mono {ρ τ w : String} (vocab : List String)
    (idx : List (String × List Identity)) (word : String) (d : WData)
    (h : HasFormUnder idx ρ τ w) :
    HasFormUnder (processWord vocab idx word d) ρ τ w := by
  unfold processWord
  exact foldl_addOcc_mono (mkOcc word d) _ idx h

theorem processWord_inv {ρ τ w : String} (vocab : List String)
    (idx : List (String × List Identity)) (word : String) (d : WData)
    (h : HasFormUnder (processWord vocab idx word d) ρ τ w) :
    HasFormUnder idx ρ τ w ∨
      (∃ p ∈ effInterps word vocab, p.1 = ρ ∧ p.2.typ = τ) ∧ word = w := by
  unfold processWord at h
  rcases foldl_addOcc_inv (mkOcc word d) _ idx h with h' | ⟨p, hp, h1, h2, h3⟩
  · exact Or.inl h'
  · exact Or.inr ⟨⟨p, hp, h1, h2⟩, h3⟩

theorem foldl_processWord_mono {ρ τ w : String} (vocab : List String) :
    ∀ (wd : List (String × WData)) (idx : List (String × List Identity)),
      HasFormUnder idx ρ τ w →
      HasFormUnder (wd.foldl (fun idx q => processWord vocab idx q.1 q.2) idx) ρ τ w
  | [], _, h => h
  | _ :: qs, _, h => foldl_processWord_mono vocab qs _ (processWord_mono _ _ _ _ h)

theorem foldl_processWord_establish (vocab : List String) :
    ∀ (wd : List (String × WData)) (idx : List (String × List Identity))
      (q : String × WData), q ∈ wd → ∀ p ∈ effInterps q.1 vocab,
      HasFormUnder (wd.foldl (fun idx r => processWord vocab idx r.1 r.2) idx)
        p.1 p.2.typ q.1 := by
  intro wd
  induction wd with
  | nil => intro idx q hq; simp at hq
  | cons r rs ih =>
    intro idx q hq p hp
    rcases List.mem_cons.mp hq with rfl | hq'
    · exact foldl_processWord_mono vocab rs _ (processWord_establish _ _ _ _ _ hp)
    · exact ih _ _ hq' p hp

theorem foldl_processWord_inv {ρ τ w : String} (vocab : List String) :
    ∀ (wd : List (String × WData)) (idx : List (String × List Identity)),
      HasFormUnder (wd.foldl (fun idx q => processWord vocab idx q.1 q.2) idx) ρ τ w →
      HasFormUnder idx ρ τ w ∨
        (w ∈ wd.map Prod.fst ∧ ∃ p ∈ effInterps w vocab, p.1 = ρ ∧ p.2.typ = τ) := by
  intro wd
  induction wd with
  | nil => intro idx h; exact Or.inl h
  | cons r rs ih =>
    intro idx h
    rcases ih _ h with h' | ⟨hmem, hrest⟩
    · rcases processWord_inv _ _ _ _ h' with h'' | ⟨⟨p, hp, h1, h2⟩, h3⟩
      · exact Or.inl h''
      · subst h3
        exact Or.inr ⟨by simp, p, hp, h1, h2⟩
    · exact Or.inr ⟨by simp [hmem], hrest⟩

theorem build_index_eq (word_data : List (String × WData)) :
    build_index word_data =
      word_data.foldl
        (fun idx q => processWord (word_data.map Prod.fst) idx q.1 q.2) [] := rfl

theorem hasForm_of_hasFormUnder {idx : List (String × List Identity)} {ρ τ w : String}
    (h : HasFormUnder idx ρ τ w) : HasForm idx w := by
  unfold HasFormUnder at h
  unfold HasForm
  obtain ⟨e, he, -, i, hi, -, hocc⟩ := h
  exact ⟨e, he, i, hi, hocc⟩

/-- C1: every word `w` of the vocabulary (the key set of the loaded word data) ends up
in the built index with at least one occurrence entry whose `form` field equals `w`
(via a lexicon match, a suffix rule, or the `(w, Unknown, 'N/A', 'Base Form')`
fallback): no vocabulary word is dropped. -/
theorem C1_coverage (word_data : List (String × WData)) (w : String)
    (h : w ∈ word_data.map Prod.fst) :
    HasForm (build_index word_data) w := by
  obtain ⟨q, hq, hw⟩ := List.mem_map.mp h
  obtain ⟨p, hp⟩ :=
    List.exists_mem_of_ne_nil _ (effInterps_ne_nil q.1 (word_data.map Prod.fst))
  have hmain :=
    foldl_processWord_establish (word_data.map Prod.fst) word_data [] q hq p hp
  rw [build_index_eq]
  subst hw
  exact hasForm_of_hasFormUnder hmain

/-- Witness for C1 at a concrete corpus: the single-word corpus `رسول`. -/
theorem C1_coverage_witness :
    HasForm (build_index [("رسول", ⟨1, ["Gen 1:1"]⟩)]) "رسول" :=
  C1_coverage [("رسول", ⟨1, ["Gen 1:1"]⟩)] "رسول" (by decide)

/-!
### C2: homonym handling
-/

theorem verb_lexicon_keys : VERB_LEXICON.map Prod.fst = ["بوتلل", "رسول", "پوهول"] := rfl

theorem effInterps_botlul (vocab : List String) :
    effInterps "بوتلل" vocab = [("بوتلل", ⟨"Verb", "Irregular Verb", "Infinitive Root"⟩)] := rfl

theorem effInterps_rasawul (vocab : List String) :
    effInterps "رسول" vocab =
      [("رسول", ⟨"Verb", "Transitive Verb (to deliver/send)", "Infinitive Root"⟩),
       ("رسول", ⟨"Verb", "Transitive Verb (to deliver/send)",
         "Conjugation from imperfective stem 'رسو'"⟩)] := rfl

theorem effInterps_pohawul (vocab : List String) :
    effInterps "پوهول" vocab =
      [("رسول", ⟨"Verb", "Transitive Verb (to deliver/send)", "Related Root: 'پوهول'"⟩),
       ("پوهول", ⟨"Verb", "Causative Verb (to make understand)", "Infinitive Root"⟩),
       ("پوهول", ⟨"Verb", "Causative Verb (to make understand)",
         "Conjugation from imperfective stem 'پوهو'"⟩)] := rfl

/-- Every interpretation the engine returns for a verb-lexicon key is category Verb
(no matter what the vocabulary is): the Unknown fallback is gated on
`not interpretations`, so it never fires for a verb-lexicon key. -/
theorem verb_root_interps_all_verb (r : String) (hr : r ∈ VERB_LEXICON.map Prod.fst)
    (vocab : List String) : ∀ p ∈ effInterps r vocab, p.2.typ = "Verb" := by
  rw [verb_lexicon_keys] at hr
  simp only [List.mem_cons, List.not_mem_nil, or_false] at hr
  rcases hr with rfl | rfl | rfl
  · intro p hp
    rw [effInterps_botlul] at hp
    simp only [List.mem_cons, List.not_mem_nil, or_false] at hp
    rcases hp with rfl
    rfl
  · intro p hp
    rw [effInterps_rasawul] at hp
    simp only [List.mem_cons, List.not_mem_nil, or_false] at hp
    rcases hp with rfl | rfl <;> rfl
  · intro p hp
    rw [effInterps_pohawul] at hp
    simp only [List.mem_cons, List.not_mem_nil, or_false] at hp
    rcases hp with rfl | rfl | rfl <;> rfl

/-- For every verb-lexicon key the engine emits the branch-A interpretation
`(r, Verb, 'Infinitive Root')`, whose root is the key itself. -/
theorem verb_root_self_interp (r : String) (hr : r ∈ VERB_LEXICON.map Prod.fst)
    (vocab : List String) :
    ∃ p ∈ effInterps r vocab, p.1 = r ∧ p.2.typ = "Verb" := by
  rw [verb_lexicon_keys] at hr
  simp only [List.mem_cons, List.not_mem_nil, or_false] at hr
  rcases hr with rfl | rfl | rfl
  · exact ⟨("بوتلل", ⟨"Verb", "Irregular Verb", "Infinitive Root"⟩),
      by rw [effInterps_botlul]; simp, rfl, rfl⟩
  · exact ⟨("رسول", ⟨"Verb", "Transitive Verb (to deliver/send)", "Infinitive Root"⟩),
      by rw [effInterps_rasawul]; simp, rfl, rfl⟩
  · exact ⟨("پوهول", ⟨"Verb", "Causative Verb (to make understand)", "Infinitive Root"⟩),
      by rw [effInterps_pohawul]; simp, rfl, rfl⟩

/-- C2 counterexample: with the corpus consisting of the single word `رسول` — a root
that is both a key of the verb lexicon and a member of the vocabulary — the built
index's entry for `رسول` contains a Verb identity but NO Noun/Adj identity: the
plain-noun reading IS suppressed by the verb match, refuting the claim. -/
theorem C2_homonym_counterexample :
    (∃ e ∈ build_index [("رسول", ⟨1, ["Gen 1:1"]⟩)], e.1 = "رسول" ∧
        ∃ i ∈ e.2, i.typ = "Verb") ∧
      ¬ ∃ e ∈ build_index [("رسول", ⟨1, ["Gen 1:1"]⟩)], e.1 = "رسول" ∧
          ∃ i ∈ e.2, i.typ = "Noun/Adj" := by
  decide

/-- C2 amended: for every root that is both a key of the verb lexicon and a key of the
loaded word data, the built index's entry for that root contains a Verb identity
holding an occurrence for the root itself, and every identity anywhere in the index
holding an occurrence whose form is that root is category Verb — the plain-noun
fallback reading is suppressed, because the fallback fires only when no
interpretation was produced and all interpretations for a verb-lexicon key are Verb. -/
theorem C2_homonym_amended (word_data : List (String × WData)) (r : String)
    (hlex : r ∈ VERB_LEXICON.map Prod.fst) (hvoc : r ∈ word_data.map Prod.fst) :
    HasFormUnder (build_index word_data) r "Verb" r ∧
      ∀ ρ τ, HasFormUnder (build_index word_data) ρ τ r → τ = "Verb" := by
  constructor
  · obtain ⟨q, hq, hw⟩ := List.mem_map.mp hvoc
    obtain ⟨p, hp, hp1, hp2⟩ :=
      verb_root_self_interp r hlex (word_data.map Prod.fst)
    rw [build_index_eq]
    have := foldl_processWord_establish (word_data.map Prod.fst) word_data [] q hq p
      (by rw [hw]; exact hp)
    rw [hp1, hp2, hw] at this
    exact this
  · intro ρ τ h
    rw [build_index_eq] at h
    rcases foldl_processWord_inv (word_data.map Prod.fst) word_data [] h with
      h' | ⟨-, p, hp, -, h2⟩
    · obtain ⟨e, he, -⟩ := h'
      simp at he
    · rw [← h2]
      exact verb_root_interps_all_verb r hlex _ p hp

/-!
### C3, C4, C6: membership lemmas for the engine's branches

`find_all_possible_roots` is restated through named stages (definitionally equal to
the definition above) so that interpretations can be traced through the branches.
-/

/-- The pre-dedup interpretation list: verb analysis, irregular noun/adjective
analysis, regular suffix analysis, in source order. -/
def rawInterps (word : String) (vocab : List String) : List (String × Interp) :=
  (VERB_LEXICON.flatMap (fun p => verbEntryInterps word p.1 p.2))
  ++ (IRREGULAR_NOUN_ADJ_LEXICON.flatMap (fun p => nounEntryInterps word p.1 p.2))
  ++ suffixInterps word vocab

/-- The pre-dedup list after the conditional vocabulary fallback. -/
def withFallback (word : String) (vocab : List String) : List (String × Interp) :=
  if (rawInterps word vocab).isEmpty && vocab.contains word then
    rawInterps word vocab ++ [(word, ⟨"Unknown", "N/A", "Base Form"⟩)]
  else rawInterps word vocab

theorem find_all_eq (word : String) (vocab : List String) :
    find_all_possible_roots word vocab = dedupInterpsGo [] (withFallback word vocab) := rfl

theorem dedupInterpsGo_key_mem :
    ∀ (l : List (String × Interp)) (seen : List (String × String × String))
      (x : String × Interp), x ∈ l →
      interpKey x ∈ seen ∨ ∃ y ∈ dedupInterpsGo seen l, interpKey y = interpKey x := by
  intro l
  induction l with
  | nil => intro seen x hx; simp at hx
  | cons a as ih =>
    intro seen x hx
    rcases List.mem_cons.mp hx with rfl | hx'
    · by_cases h : interpKey x ∈ seen
      · exact Or.inl h
      · exact Or.inr ⟨x, by simp [dedupInterpsGo, h], rfl⟩
    · by_cases h : interpKey a ∈ seen
      · rcases ih seen x hx' with h' | ⟨y, hy, hk⟩
        · exact Or.inl h'
        · exact Or.inr ⟨y, by simp only [dedupInterpsGo, if_pos h]; exact hy, hk⟩
      · rcases ih (interpKey a :: seen) x hx' with h' | ⟨y, hy, hk⟩
        · rcases List.mem_cons.mp h' with heq | hseen
          · exact Or.inr ⟨a, by simp [dedupInterpsGo, h], heq.symm⟩
          · exact Or.inl hseen
        · exact Or.inr
            ⟨y, by simp only [dedupInterpsGo, if_neg h, List.mem_cons]; exact Or.inr hy, hk⟩

theorem mem_withFallback_of_mem_raw {word : String} {vocab : List String}
    {x : String × Interp} (hx : x ∈ rawInterps word vocab) :
    x ∈ withFallback word vocab := by
  unfold withFallback
  by_cases h : ((rawInterps word vocab).isEmpty && vocab.contains word) = true
  · simp only [if_pos h]
    exact List.mem_append_left _ hx
  · simp only [if_neg h]
    exact hx

/-- Any pre-dedup interpretation survives deduplication up to its
`(root, type, form_description)` key. -/
theorem find_all_key_mem {word : String} {vocab : List String} {x : String × Interp}
    (hx : x ∈ withFallback word vocab) :
    ∃ y ∈ find_all_possible_roots word vocab, interpKey y = interpKey x := by
  rw [find_all_eq]
  rcases dedupInterpsGo_key_mem _ [] x hx with h | h
  · simp at h
  · exact h

/-- Branch B membership: every lexicon stem that is a prefix of `word` contributes its
interpretation to `rawInterps`. -/
theorem stem_interp_mem_raw {word : String} (vocab : List String) {root : String}
    {details : VerbDetails} (hmem : (root, details) ∈ VERB_LEXICON) {st sf : String}
    (hst : (st, sf) ∈ details.stems) (hpre : pyStartsWith word sf = true) :
    (root, (⟨"Verb", details.pattern_info,
      "Conjugation from " ++ st ++ " stem '" ++ sf ++ "'"⟩ : Interp))
      ∈ rawInterps word vocab := by
  unfold rawInterps
  refine List.mem_append.mpr (Or.inl (List.mem_append.mpr (Or.inl ?_)))
  refine List.mem_flatMap.mpr ⟨(root, details), hmem, ?_⟩
  unfold verbEntryInterps
  refine List.mem_append.mpr (Or.inl (List.mem_append.mpr (Or.inr ?_)))
  refine List.mem_filterMap.mpr ⟨(st, sf), hst, ?_⟩
  simp [hpre]

/-- Regular-suffix membership: the suffix rule contributes its interpretation to
`rawInterps` for every word with a plural ending whose truncation is in the
vocabulary — with no condition on the other branches. -/
theorem suffix_interp_mem_raw {word : String} {vocab : List String} {ending : String}
    (hend : ending ∈ plural_endings) (hsuf : pyEndsWith word ending = true)
    (hvoc : vocab.contains (pyDropRightChars word (pyLen ending)) = true) :
    (pyDropRightChars word (pyLen ending),
      (⟨"Noun/Adj", "Regular Noun/Adj",
        "Inflection of '" ++ pyDropRightChars word (pyLen ending) ++ "'"⟩ : Interp))
      ∈ rawInterps word vocab := by
  have hC : (pyDropRightChars word (pyLen ending),
      (⟨"Noun/Adj", "Regular Noun/Adj",
        "Inflection of '" ++ pyDropRightChars word (pyLen ending) ++ "'"⟩ : Interp))
      ∈ suffixInterps word vocab := by
    unfold suffixInterps
    refine List.mem_flatMap.mpr ⟨ending, hend, ?_⟩
    have hv : pyDropRightChars word (pyLen ending) ∈ vocab := by simpa using hvoc
    simp [hsuf, hv]
  unfold rawInterps
  exact List.mem_append.mpr (Or.inr hC)

/-- Witness for C2's amended theorem at the single-word corpus `رسول`. -/
theorem C2_homonym_amended_witness :
    HasFormUnder (build_index [("رسول", ⟨1, ["Gen 1:1"]⟩)]) "رسول" "Verb" "رسول" ∧
      ∀ ρ τ, HasFormUnder (build_index [("رسول", ⟨1, ["Gen 1:1"]⟩)]) ρ τ "رسول" →
        τ = "Verb" :=
  C2_homonym_amended [("رسول", ⟨1, ["Gen 1:1"]⟩)] "رسول" (by decide) (by decide)

/-- C3 counterexample: `رسو` (imperfective stem) is a strict prefix of `رسولی`
(past-participle stem of the same entry) and the word `رسولی` starts with the longer
stem, yet the FIRST interpretation returned is the one derived from the shorter stem
`رسو`: the v15 stem table is scanned in dict insertion order (imperfective,
perfective, past_participle), not by decreasing stem length, and the word is not
attributed (solely) to the longer stem's interpretation. -/
theorem C3_longest_stem_counterexample :
    List.isPrefixOf "رسو".data "رسولی".data = true ∧ ("رسو" : String) ≠ "رسولی" ∧
      pyStartsWith "رسولی" "رسولی" = true ∧
      (find_all_possible_roots "رسولی" []).head? =
        some ("رسول", ⟨"Verb", "Transitive Verb (to deliver/send)",
          "Conjugation from imperfective stem 'رسو'"⟩) := by decide

/-- C3 amended: every lexicon stem that is a prefix of the word contributes its
interpretation (so a word starting with a longer stem S2 also keeps the
interpretation of a shorter prefix stem S1), and the stem table of each verb entry is
scanned in dictionary insertion order — witnessed by the returned order for `رسولی`,
where the shorter imperfective stem's interpretation precedes the longer
past-participle stem's. -/
theorem C3_longest_stem_amended :
    (∀ (word : String) (vocab : List String) (root : String) (details : VerbDetails)
        (st sf : String), (root, details) ∈ VERB_LEXICON → (st, sf) ∈ details.stems →
        pyStartsWith word sf = true →
        ∃ y ∈ find_all_possible_roots word vocab,
          y.1 = root ∧ y.2.typ = "Verb" ∧
            y.2.form_description = "Conjugation from " ++ st ++ " stem '" ++ sf ++ "'") ∧
      find_all_possible_roots "رسولی" [] =
        [("رسول", ⟨"Verb", "Transitive Verb (to deliver/send)",
           "Conjugation from imperfective stem 'رسو'"⟩),
         ("رسول", ⟨"Verb", "Transitive Verb (to deliver/send)",
           "Conjugation from past_participle stem 'رسولی'"⟩)] := by
  constructor
  · intro word vocab root details st sf hmem hst hpre
    have hraw := stem_interp_mem_raw vocab hmem hst hpre
    obtain ⟨y, hy, hk⟩ := find_all_key_mem (mem_withFallback_of_mem_raw hraw)
    simp only [interpKey, Prod.mk.injEq] at hk
    exact ⟨y, hy, hk.1, hk.2.1, hk.2.2⟩
  · decide

/-- Witness for C3's amended theorem: the stem pair (`imperfective`, `رسو`) of the
entry `رسول` applied to the word `رسولی`. -/
theorem C3_longest_stem_amended_witness :
    ∃ y ∈ find_all_possible_roots "رسولی" [],
      y.1 = "رسول" ∧ y.2.typ = "Verb" ∧
        y.2.form_description =
          "Conjugation from " ++ "imperfective" ++ " stem '" ++ "رسو" ++ "'" :=
  C3_longest_stem_amended.1 "رسولی" [] "رسول"
    ⟨"Verb", "Transitive Verb (to deliver/send)",
      [("imperfective", "رسو"), ("perfective", "ورسو"), ("past_participle", "رسولی")],
      some ["پوهول"], none, "rasawúl"⟩
    "imperfective" "رسو" (by decide) (by decide) (by decide)

/-- C4 counterexample: the word `رسوان` (vocabulary `{رسو}`) is matched by a verb
branch (stem `رسو` of root `رسول`) AND still receives the regular-suffix Noun/Adj
interpretation — the suffix rules are not gated on higher-precedence branches. -/
theorem C4_suffix_gating_counterexample :
    (∃ p ∈ find_all_possible_roots "رسوان" ["رسو"], p.2.typ = "Verb") ∧
      ("رسو", (⟨"Noun/Adj", "Regular Noun/Adj", "Inflection of 'رسو'"⟩ : Interp))
        ∈ find_all_possible_roots "رسوان" ["رسو"] := by decide

/-- C4 amended: the regular suffix rules fire for EVERY word ending in a plural
ending whose truncation is in the vocabulary, regardless of any verb or irregular
match; only the Unknown fallback is gated on no interpretation having been produced.
The concrete conjunct shows a verb-matched word also receiving the suffix reading. -/
theorem C4_suffix_gating_amended :
    (∀ (word : String) (vocab : List String) (ending : String),
        ending ∈ plural_endings → pyEndsWith word ending = true →
        vocab.contains (pyDropRightChars word (pyLen ending)) = true →
        ∃ y ∈ find_all_possible_roots word vocab,
          y.1 = pyDropRightChars word (pyLen ending) ∧ y.2.typ = "Noun/Adj" ∧
            y.2.form_description =
              "Inflection of '" ++ pyDropRightChars word (pyLen ending) ++ "'") ∧
      find_all_possible_roots "رسوان" ["رسو"] =
        [("رسول", ⟨"Verb", "Transitive Verb (to deliver/send)",
           "Conjugation from imperfective stem 'رسو'"⟩),
         ("رسو", ⟨"Noun/Adj", "Regular Noun/Adj", "Inflection of 'رسو'"⟩)] := by
  constructor
  · intro word vocab ending hend hsuf hvoc
    have hraw := suffix_interp_mem_raw hend hsuf hvoc
    obtain ⟨y, hy, hk⟩ := find_all_key_mem (mem_withFallback_of_mem_raw hraw)
    simp only [interpKey, Prod.mk.injEq] at hk
    exact ⟨y, hy, hk.1, hk.2.1, hk.2.2⟩
  · decide

/-- Witness for C4's amended theorem: `رسوان` with ending `ان` and vocabulary `{رسو}`. -/
theorem C4_suffix_gating_amended_witness :
    ∃ y ∈ find_all_possible_roots "رسوان" ["رسو"],
      y.1 = pyDropRightChars "رسوان" (pyLen "ان") ∧ y.2.typ = "Noun/Adj" ∧
        y.2.form_description =
          "Inflection of '" ++ pyDropRightChars "رسوان" (pyLen "ان") ++ "'" :=
  C4_suffix_gating_amended.1 "رسوان" ["رسو"] "ان" (by decide) (by decide) (by decide)

/-- C6 counterexample: inferring `پښتانه` resolves to root `پښتون` with category
Noun/Adj, but the v15 form_description is `Inflection of 'پښتون'`, not the claimed
`Inflected form of 'پښتون'`. -/
theorem C6_irregular_inflection_counterexample :
    find_all_possible_roots "پښتانه" [] =
      [("پښتون", ⟨"Noun/Adj", "Pattern 4: Pashtoon", "Inflection of 'پښتون'"⟩)] ∧
      ("Inflection of 'پښتون'" : String) ≠ "Inflected form of 'پښتون'" := by decide

/-- C6 amended: for any vocabulary, inferring `پښتانه` yields exactly the
interpretation with root `پښتون`, category Noun/Adj and form_description
`Inflection of 'پښتون'`. -/
theorem C6_irregular_inflection_amended (vocab : List String) :
    find_all_possible_roots "پښتانه" vocab =
      [("پښتون", ⟨"Noun/Adj", "Pattern 4: Pashtoon", "Inflection of 'پښتون'"⟩)] := rfl

/-!
### C5: verse aggregation across corpus records

The two raw words `کي` (with U+064A Arabic yeh) and `کی` (with U+06CC Farsi yeh)
normalize to the same text, so their records merge in `load_word_data`.
-/

/-- C5 counterexample: two corpus records whose words normalize to the same text are
merged with the counts summed — but the verse lists are concatenated with `extend`,
not union-deduplicated: the shared reference `Gen 1:1` survives twice in the merged
occurrence entry of the built index, refuting the no-duplicate claim. -/
theorem C5_verse_aggregation_counterexample :
    ∃ e ∈ build_index (load_word_data
        [("کي", 1, ["Gen 1:1"]), ("کی", 2, ["Gen 1:1", "Gen 1:2"])]),
      ∃ i ∈ e.2, ∃ b ∈ i.forms, ∃ o ∈ b.2,
        o.form = "کی" ∧ o.count = 3 ∧ o.verses.count "Gen 1:1" = 2 := by decide

/-- C5 amended: when two corpus records merge under one normalized key, the merged
count is the sum of the contributing counts, and the merged verse list is the first
record's deduplicated references followed by the second record's references appended
raw — so each reference of the first record appears once, while references of later
records are appended without deduplication and no order normalization is applied. -/
theorem C5_verse_aggregation_amended (w1 w2 : String) (c1 c2 : Nat)
    (r1 r2 : List String) (h : normalize_pashto_char w1 = normalize_pashto_char w2) :
    ∃ d, load_word_data [(w1, c1, r1), (w2, c2, r2)] =
        [(normalize_pashto_char w1, d)] ∧
      d.count = c1 + c2 ∧
      ∀ v, d.verses.count v = (if v ∈ r1 then 1 else 0) + r2.count v := by
  refine ⟨⟨c1 + c2, r1.dedup ++ r2⟩, ?_, rfl, ?_⟩
  · simp [load_word_data, insertWordData, h]
  · intro v
    simp [List.count_append, List.count_dedup]

/-- Witness for C5's amended theorem at the concrete merging records. -/
theorem C5_verse_aggregation_amended_witness :
    ∃ d, load_word_data [("کي", 1, ["Gen 1:1"]), ("کی", 2, ["Gen 1:1", "Gen 1:2"])] =
        [(normalize_pashto_char "کي", d)] ∧
      d.count = 1 + 2 ∧
      ∀ v, d.verses.count v =
        (if v ∈ ["Gen 1:1"] then 1 else 0) + ["Gen 1:1", "Gen 1:2"].count v :=
  C5_verse_aggregation_amended "کي" "کی" 1 2 ["Gen 1:1"] ["Gen 1:1", "Gen 1:2"]
    (by decide)

/-!
## Verb conjugation generator  (src/verb_inflector.py)

The lexicon `VERBS` is loaded at import time from `verbs_lexicon.json` (a data file,
not part of the sources); `conjugate_verb` is modelled with that lexicon passed
explicitly.  A JSON record is a dict whose fields may be absent (`Option`); Python's
`d[key]` on a missing key raises `KeyError`, modelled as `Except.error "KeyError"`;
`VERBS.get(root)` returning nothing and the `if not v` falsiness test yield the empty
dict return, modelled as `Except.ok none`.
-/

structure StemsJ where
  imperfective : Option String
  perfective : Option String
deriving DecidableEq

structure RootsJ where
  imperfective : Option String
  perfective : Option String
deriving DecidableEq

structure RomJ where
  imperfective_stem : Option String
  perfective_stem : Option String
  past_participle : Option String
  imperfective_root : Option String
  perfective_root : Option String
deriving DecidableEq

structure VerbJ where
  stems : Option StemsJ
  roots : Option RootsJ
  past_participle : Option String
  romanization : Option RomJ
deriving DecidableEq

/-- Python `d[key]`: `KeyError` when the field is absent. -/
def getKey {α : Type} : Option α → Except String α
  | none => Except.error "KeyError"
  | some a => Except.ok a

/-- Python falsiness of the looked-up dict (`if not v`): the record with no fields. -/
def emptyVerbJ (v : VerbJ) : Bool :=
  v.stems == none && v.roots == none && v.past_participle == none &&
    v.romanization == none

/-- `PRESENT_ENDINGS`: slot -> (Pashto ending, romanized ending), insertion order. -/
def PRESENT_ENDINGS : List (String × String × String) :=
  [("1sg", "م", "um"), ("1pl", "و", "oo"), ("2sg", "ې", "e"),
   ("2pl", "ئ", "ey"), ("3sg", "ي", "ee"), ("3pl", "ي", "ee")]

/-- `PAST_ENDINGS` (agreement with the object), insertion order. -/
def PAST_ENDINGS : List (String × String × String) :=
  [("1sg", "م", "um"), ("1pl", "و", "oo"), ("2sg", "ې", "e"),
   ("2pl", "ئ", "ey"), ("3sg_m", "و", "o"), ("3sg_f", "ه", "a"), ("3pl", "", "")]

/-- Ending-table access `TBL[slot]`; the fallback is unreachable for the two static
tables above, whose slot keys are exactly the ones accessed. -/
def tblGet (tbl : List (String × String × String)) (k : String) : String × String :=
  match tbl.find? (fun e => e.1 == k) with
  | some e => (e.2.1, e.2.2)
  | none => ("", "")

/-- `build_present`: slot -> (stem ++ ending, stem_rom ++ ending_rom), slots in the
order of the Python dict literal. -/
def build_present (stem_ps stem_rom : String) : List (String × String × String) :=
  ["1sg", "1pl", "2sg", "2pl", "3sg", "3pl"].map (fun k =>
    (k, stem_ps ++ (tblGet PRESENT_ENDINGS k).1, stem_rom ++ (tblGet PRESENT_ENDINGS k).2))

def build_past (stem_ps stem_rom : String) : List (String × String × String) :=
  ["1sg", "1pl", "2sg", "2pl", "3sg_m", "3sg_f", "3pl"].map (fun k =>
    (k, stem_ps ++ (tblGet PAST_ENDINGS k).1, stem_rom ++ (tblGet PAST_ENDINGS k).2))

/-- Python dict assignment `m[k] = v` on a string-keyed dict. -/
def dictSet (m : List (String × String)) (k v : String) : List (String × String) :=
  updList (fun e => e.1 == k) (fun e => (e.1, v)) (k, v) m

/-- The returned conjugation structure: the `meta` dict is flattened into the leading
fields (`type` is the constant `'Verb'`). -/
structure ConjTable where
  typ : String
  root : String
  imperfective_stem : String
  perfective_stem : String
  imperfective_root : String
  perfective_root : String
  past_participle : String
  romanization : RomJ
  present : List (String × String × String)
  subjunctive : List (String × String × String)
  continuous_past : List (String × String × String)
  simple_past : List (String × String × String)
  forms_map : List (String × String)
deriving DecidableEq

/-- `conjugate_verb(root)` of src/verb_inflector.py lines 41-111, with field accesses
performed in source order (an absent required field raises at its first access). -/
def conjugate_verb (verbs : List (String × VerbJ)) (root : String) :
    Except String (Option ConjTable) :=
  match verbs.lookup root with
  | none => Except.ok none
  | some v =>
    if emptyVerbJ v then Except.ok none
    else do
      let stems ← getKey v.stems
      let imperfective_stem ← getKey stems.imperfective
      let perfective_stem ← getKey stems.perfective
      let roots ← getKey v.roots
      let imperfective_root ← getKey roots.imperfective
      let perfective_root ← getKey roots.perfective
      let past_participle ← getKey v.past_participle
      let rom ← getKey v.romanization
      let impf_stem_rom ← getKey rom.imperfective_stem
      let perf_stem_rom ← getKey rom.perfective_stem
      let part_rom ← getKey rom.past_participle
      let present := build_present imperfective_stem impf_stem_rom
      let subjunctive := build_present perfective_stem perf_stem_rom
      let impf_root_rom ← getKey rom.imperfective_root
      let cont_past := build_past imperfective_root impf_root_rom
      let perf_root_rom ← getKey rom.perfective_root
      let simple_past := build_past perfective_root perf_root_rom
      let forms_map0 := dictSet (dictSet (dictSet [] imperfective_root impf_root_rom)
        perfective_root perf_root_rom) past_participle part_rom
      let forms_map := (present ++ subjunctive ++ cont_past ++ simple_past).foldl
        (fun m e => dictSet m e.2.1 e.2.2) forms_map0
      Except.ok (some
        { typ := "Verb", root := root,
          imperfective_stem := imperfective_stem, perfective_stem := perfective_stem,
          imperfective_root := imperfective_root, perfective_root := perfective_root,
          past_participle := past_participle, romanization := rom,
          present := present, subjunctive := subjunctive,
          continuous_past := cont_past, simple_past := simple_past,
          forms_map := forms_map })

/-- C7: for a lexicon entry with all required roles, the present paradigm is built
from the imperfective STEM and the subjunctive from the perfective STEM with the
present-ending table, while the continuous past is built from the imperfective ROOT
and the simple past from the perfective ROOT with the past-ending table — so when the
stem and root strings differ, the present-family and past-family surface forms are
built from those distinct substrings. -/
theorem C7_stem_vs_root (verbs : List (String × VerbJ)) (root : String) (v : VerbJ)
    (si sp ri rp pp ris rps rpp rir rpr : String)
    (hv : verbs.lookup root = some v)
    (hne : emptyVerbJ v = false)
    (hstems : v.stems = some ⟨some si, some sp⟩)
    (hroots : v.roots = some ⟨some ri, some rp⟩)
    (hpp : v.past_participle = some pp)
    (hrom : v.romanization = some ⟨some ris, some rps, some rpp, some rir, some rpr⟩) :
    ∃ t, conjugate_verb verbs root = Except.ok (some t) ∧
      t.present = build_present si ris ∧
      t.subjunctive = build_present sp rps ∧
      t.continuous_past = build_past ri rir ∧
      t.simple_past = build_past rp rpr := by
  unfold conjugate_verb
  rw [hv]
  simp only [hne, Bool.false_eq_true, if_false, hstems, hroots, hpp, hrom]
  exact ⟨_, rfl, rfl, rfl, rfl, rfl⟩

/-- Witness for C7 at a one-entry lexicon for `لیدل` (to see), whose stems `وین` /
`ووین` differ from its roots `لیدل` / `ولیدل`. -/
theorem C7_stem_vs_root_witness :
    ∃ t, conjugate_verb
        [("لیدل", ⟨some ⟨some "وین", some "ووین"⟩, some ⟨some "لیدل", some "ولیدل"⟩,
          some "لیدلی", some ⟨some "ween", some "ooween", some "leedulay",
            some "leedul", some "wuleedul"⟩⟩)] "لیدل" = Except.ok (some t) ∧
      t.present = build_present "وین" "ween" ∧
      t.subjunctive = build_present "ووین" "ooween" ∧
      t.continuous_past = build_past "لیدل" "leedul" ∧
      t.simple_past = build_past "ولیدل" "wuleedul" :=
  C7_stem_vs_root
    [("لیدل", ⟨some ⟨some "وین", some "ووین"⟩, some ⟨some "لیدل", some "ولیدل"⟩,
      some "لیدلی", some ⟨some "ween", some "ooween", some "leedulay",
        some "leedul", some "wuleedul"⟩⟩)] "لیدل"
    ⟨some ⟨some "وین", some "ووین"⟩, some ⟨some "لیدل", some "ولیدل"⟩,
      some "لیدلی", some ⟨some "ween", some "ooween", some "leedulay",
        some "leedul", some "wuleedul"⟩⟩
    "وین" "ووین" "لیدل" "ولیدل" "لیدلی" "ween" "ooween"
    "leedulay" "leedul" "wuleedul" rfl rfl rfl rfl rfl rfl

/-- C8 counterexample: a lexicon entry that is present (and non-falsy) but lacks the
required stem roles makes `conjugate_verb` raise `KeyError` (modelled as
`Except.error`) instead of returning an absent/empty result — the function does NOT
"never raise for any root string". -/
theorem C8_absence_counterexample :
    conjugate_verb [("x", ⟨some ⟨none, none⟩, none, none, none⟩)] "x" =
      Except.error "KeyError" := rfl

/-- C8 amended: `conjugate_verb` returns the empty result without raising when the
root is not a key of the lexicon, or when its entry is the empty (falsy) record; but
when the entry is present and non-empty yet lacks a required stem role, the function
raises `KeyError` rather than returning absent. -/
theorem C8_absence_amended :
    (∀ (verbs : List (String × VerbJ)) (root : String), verbs.lookup root = none →
        conjugate_verb verbs root = Except.ok none) ∧
      (∀ (verbs : List (String × VerbJ)) (root : String) (v : VerbJ),
        verbs.lookup root = some v → emptyVerbJ v = true →
        conjugate_verb verbs root = Except.ok none) ∧
      conjugate_verb [("x", ⟨some ⟨none, none⟩, none, none, none⟩)] "x" =
        Except.error "KeyError" := by
  refine ⟨?_, ?_, rfl⟩
  · intro verbs root h
    unfold conjugate_verb
    rw [h]
  · intro verbs root v h he
    unfold conjugate_verb
    rw [h]
    simp [he]

/-- Witness for C8's amended theorem: the empty lexicon and a missing root. -/
theorem C8_absence_amended_witness :
    conjugate_verb ([] : List (String × VerbJ)) "لیدل" = Except.ok none :=
  C8_absence_amended.1 [] "لیدل" rfl

/-!
## Search helpers  (src/search_utils.py)

`search_grammatical_forms` receives the form-to-root map and the grammatical index
(the same root -> identities structure built above) and answers queries; its lookup
key is `normalize_pashto_char(word).replace(" ", "_")`.
-/

structure SearchResult where
  root : String
  typ : String
  pattern : String
  description : String
  form : String
  translit : String
  verses : List String
  count : Nat
deriving DecidableEq

/-- Line 37: `search_key = normalize_pashto_char(word).replace(" ", "_")`. -/
def search_key_of (word : String) : String :=
  replace1 ' ' '_' (normalize_pashto_char word)

/-- Python `needle in hay` on strings: contiguous-substring containment. -/
def pyInStrGo (needle : List Char) : List Char → Bool
  | [] => needle.isEmpty
  | h :: t => needle.isPrefixOf (h :: t) || pyInStrGo needle t

def pyInStr (needle hay : String) : Bool :=
  pyInStrGo needle.data hay.data

/-- Lines 47-56: a missing or `'N/A'` identity type is inferred from substrings of
`pattern_info` (Python's `in` on strings). -/
def inferType (raw_type pattern_info : String) : String :=
  if raw_type = "" ∨ raw_type = "N/A" then
    if pyInStr "Verb" pattern_info then "Verb"
    else if (pyInStr "Noun" pattern_info || pyInStr "Adj" pattern_info) then "Noun/Adj"
    else "Unknown"
  else raw_type

/-- The nested result loop of lines 39-69, keyed by the already-computed search key. -/
def search_grammatical_forms_body (search_key : String)
    (form_to_root_map : List (String × List String))
    (grammatical_index : List (String × List Identity)) : List SearchResult :=
  let root_words := (form_to_root_map.lookup search_key).getD []
  root_words.flatMap (fun root =>
    let root_data := (grammatical_index.lookup root).getD []
    root_data.flatMap (fun identity =>
      identity.forms.flatMap (fun b =>
        b.2.filterMap (fun item =>
          if normalize_pashto_char item.form = search_key then
            some { root := root, typ := inferType identity.typ identity.pattern_info,
                   pattern := identity.pattern_info, description := b.1,
                   form := item.form, translit := item.translit,
                   verses := item.verses, count := item.count }
          else none))))

def search_grammatical_forms (word : String) (form_to_root_map : List (String × List String))
    (grammatical_index : List (String × List Identity)) : List SearchResult :=
  search_grammatical_forms_body (search_key_of word) form_to_root_map grammatical_index

/-- The per-character action of `.replace(" ", "_")`. -/
def underscoreChar (c : Char) : Char := if c = ' ' then '_' else c

theorem underscore_normChar_underscore (c : Char) :
    underscoreChar (normChar (underscoreChar c)) = underscoreChar (normChar c) := by
  by_cases hs : c = ' '
  · subst hs; decide
  · by_cases h1 : c = yehArabic
    · subst h1; decide
    · by_cases h2 : c = yehMaqsura
      · subst h2; decide
      · by_cases h3 : c = yehHamza
        · subst h3; decide
        · simp [underscoreChar, normChar, hs, h1, h2, h3]

theorem map_underscore_norm (l : List Char) :
    ((l.map underscoreChar).map normChar).map underscoreChar =
      (l.map normChar).map underscoreChar := by
  induction l with
  | nil => rfl
  | cons a as ih => simp only [List.map_cons, ih, underscore_normChar_underscore]

theorem data_replace_underscore (s : String) :
    (replace1 ' ' '_' s).data = s.data.map underscoreChar := rfl

theorem search_key_of_normalize (word : String) :
    search_key_of (normalize_pashto_char word) = search_key_of word := by
  unfold search_key_of
  rw [C9_normalize_idempotent]

theorem search_key_of_underscore (word : String) :
    search_key_of (replace1 ' ' '_' word) = search_key_of word := by
  have h : (search_key_of (replace1 ' ' '_' word)).data = (search_key_of word).data := by
    show (replace1 ' ' '_' (normalize_pashto_char (replace1 ' ' '_' word))).data
      = (replace1 ' ' '_' (normalize_pashto_char word)).data
    rw [data_replace_underscore, data_replace_underscore,
      data_normalize_pashto_char, data_normalize_pashto_char,
      data_replace_underscore]
    exact map_underscore_norm word.data
  cases ha : search_key_of (replace1 ' ' '_' word)
  cases hb : search_key_of word
  simp_all

/-- C10: the search interface cannot distinguish a query from its normalized form,
nor from the query with spaces replaced by underscores: the lookup key is always
`normalize_pashto_char(word).replace(" ", "_")`, so all three queries produce the
same result list for any form-to-root map and grammatical index. -/
theorem C10_search_canonicalization_invariance (word : String)
    (form_to_root_map : List (String × List String))
    (grammatical_index : List (String × List Identity)) :
    search_grammatical_forms (normalize_pashto_char word) form_to_root_map grammatical_index
        = search_grammatical_forms word form_to_root_map grammatical_index ∧
      search_grammatical_forms (replace1 ' ' '_' word) form_to_root_map grammatical_index
        = search_grammatical_forms word form_to_root_map grammatical_index := by
  unfold search_grammatical_forms
  constructor
  · rw [search_key_of_normalize]
  · rw [search_key_of_underscore]
